import Mathlib

/-!
Shallow embedding of `src/lib.rs` of json-database-st: a single-file JSON
database with a dotted-path engine, a WAL, snapshot save/load, and a small
query dialect.  Pure helpers (`get_value_by_path`, `set_value_by_path`,
`delete_value_by_path`, `compare_json`, `sort_json`, `match_operator`,
`check_condition`, `matches_query`, `find`, the batch decoding) are
translated into Lean functions over an inductive `Json` value; the stateful
file-system behaviour of `save`/`load`/`append_wal`/`replay_wal` is
translated into explicit state passing over a `DbState` record.

Modelling notes (external crates are abstracted, repository code is not):
 * serde_json `Value` is `Json` below.  `serde_json::Number` can be
   i64/u64/f64; numbers are modelled as `Int` (the integer comparison path
   of `compare_json`); no claim proved here exercises float comparison and
   usize overflow in `str::parse::<usize>` is not modelled.
 * serde_json `Map` (preserve_order: an insertion-ordered map) is an
   association list whose operations mirror IndexMap: `get` finds the
   entry, `insert` overwrites in place or appends, `remove` removes the
   entry (serde's preserve_order `remove` is a swap_remove, which differs
   only in the residual ordering; no claim proved here observes the order
   of an object after a removal).
 * Byte-level JSON (de)serialisation by serde is abstracted: a WAL line or
   a snapshot file is represented by its parse outcome, never by bytes.
-/

/-- serde_json::Value (numbers restricted to the integer path). -/
inductive Json where
  | null
  | bool (b : Bool)
  | num (n : Int)
  | str (s : String)
  | arr (items : List Json)
  | obj (entries : List (String × Json))

def Json.isNull : Json → Bool
  | .null => true
  | _ => false

def Json.isObj : Json → Bool
  | .obj _ => true
  | _ => false

def Json.isArr : Json → Bool
  | .arr _ => true
  | _ => false

/-- `value.is_object() || value.is_array()` -/
def Json.isContainer (v : Json) : Bool :=
  v.isObj || v.isArr

/-- Structural equality, as Rust `Value: PartialEq`.  (serde's object
equality is order-insensitive map equality; this model compares entry lists
in order.  No claim proved in this file compares two objects for
equality.) -/
def Json.beq : Json → Json → Bool
  | .null, .null => true
  | .bool a, .bool b => a == b
  | .num a, .num b => a == b
  | .str a, .str b => a == b
  | .arr [], .arr [] => true
  | .arr (x :: xs), .arr (y :: ys) => Json.beq x y && Json.beq (.arr xs) (.arr ys)
  | .obj [], .obj [] => true
  | .obj ((k, x) :: xs), .obj ((l, y) :: ys) =>
      k == l && Json.beq x y && Json.beq (.obj xs) (.obj ys)
  | _, _ => false

/-- Well-formed document: every object has pairwise-distinct keys, as is
invariant for a serde_json `Map`. -/
def keyAbsent (k : String) : List (String × Json) → Bool
  | [] => true
  | (l, _) :: rest => !(k == l) && keyAbsent k rest

def Json.wf : Json → Bool
  | .null => true
  | .bool _ => true
  | .num _ => true
  | .str _ => true
  | .arr [] => true
  | .arr (x :: xs) => Json.wf x && Json.wf (.arr xs)
  | .obj [] => true
  | .obj ((k, x) :: xs) => keyAbsent k xs && Json.wf x && Json.wf (.obj xs)

/-! ## Insertion-ordered map operations (serde_json Map / IndexMap) -/

/-- `map.get(key)` -/
def mapGet : List (String × Json) → String → Option Json
  | [], _ => none
  | (k, v) :: rest, key => if k = key then some v else mapGet rest key

/-- `map.insert(key, v)`: overwrite in place, else append at the end. -/
def mapInsert : List (String × Json) → String → Json → List (String × Json)
  | [], key, v => [(key, v)]
  | (k, w) :: rest, key, v =>
      if k = key then (k, v) :: rest else (k, w) :: mapInsert rest key v

/-- `map.get_mut(key)` followed by an in-place update of that entry. -/
def mapUpdate : List (String × Json) → String → (Json → Json) → List (String × Json)
  | [], _, _ => []
  | (k, w) :: rest, key, f =>
      if k = key then (k, f w) :: rest else (k, w) :: mapUpdate rest key f

/-- `map.remove(key)` (see the ordering note in the header). -/
def mapRemoveKey : List (String × Json) → String → List (String × Json)
  | [], _ => []
  | (k, w) :: rest, key => if k = key then rest else (k, w) :: mapRemoveKey rest key

/-! ## Dotted paths -/

/-- Rust `path.split('.')` on the character list: `""` gives `[""]`,
`"a..b"` gives `["a", "", "b"]`. -/
def splitChars : List Char → List (List Char)
  | [] => [[]]
  | c :: rest =>
      if c = '.' then [] :: splitChars rest
      else
        match splitChars rest with
        | seg :: segs => (c :: seg) :: segs
        | [] => [[c]]

/-- `let parts : Vec<&str> = path.split('.').collect();` -/
def splitPath (path : String) : List String :=
  (splitChars path.data).map String.mk

/-- `part.parse::<usize>()`: optional leading `+`, then one or more ASCII
digits (usize overflow is not modelled). -/
def parseIndex (s : String) : Option Nat :=
  let digits := match s.data with
    | '+' :: rest => rest
    | cs => cs
  if digits = [] then none
  else if digits.all Char.isDigit then
    some (digits.foldl (fun acc c => acc * 10 + (c.toNat - 48)) 0)
  else none

/-! ## compare_json -/

/-- `ord_to_int` (lib.rs 902-908). -/
def ordToInt : Ordering → Int
  | .lt => -1
  | .eq => 0
  | .gt => 1

/-- Rust `str` ordering: lexicographic on the character sequence (UTF-8
byte order coincides with code-point order). -/
def charListCompare : List Char → List Char → Ordering
  | [], [] => .eq
  | [], _ :: _ => .lt
  | _ :: _, [] => .gt
  | a :: as_, b :: bs =>
      if a < b then .lt else if b < a then .gt else charListCompare as_ bs

/-- `compare_json` (lib.rs 888-900): numbers compare numerically (integer
path modelled), strings lexicographically, anything else is incomparable. -/
def compareJson (a b : Json) : Option Int :=
  match a, b with
  | .num n1, .num n2 => some (ordToInt (compare n1 n2))
  | .str s1, .str s2 => some (ordToInt (charListCompare s1.data s2.data))
  | _, _ => none

/-- `Value::as_i64` on an order value in a sort spec (integer numbers). -/
def asI64 : Json → Option Int
  | .num n => some n
  | _ => none

/-! ## Path engine -/

/-- The segment walk of `get_value_by_path` (lib.rs 645-667). -/
def getParts : Json → List String → Option Json
  | root, [] => some root
  | root, part :: rest =>
      match root with
      | .obj m =>
          match mapGet m part with
          | some next => getParts next rest
          | none => none
      | .arr a =>
          match parseIndex part with
          | some idx =>
              match a[idx]? with
              | some next => getParts next rest
              | none => none
          | none => none
      | _ => none

/-- `get_value_by_path` (lib.rs 645-667). -/
def getValueByPath (root : Json) (path : String) : Option Json :=
  if path = "" then some root else getParts root (splitPath path)

/-- Container chosen for a missing child from the deciding segment:
`Array` when the segment parses as an index, else `Object`. -/
def freshChild (seg : String) : Json :=
  if (parseIndex seg).isSome then Json.arr [] else Json.obj []

/-- `while arr.len() <= idx { arr.push(Value::Null) }` -/
def padTo (a : List Json) (idx : Nat) : List Json :=
  a ++ List.replicate (idx + 1 - a.length) Json.null

/-- One loop iteration of `set_value_by_path` (lib.rs 669-764), recursing
over the remaining segments.  `part` is the current segment, `rest` the
segments after it (`is_last` is `rest = []`). -/
def setGo (v : Json) : Json → String → List String → Json
  | c, part, [] =>
      -- last segment (`is_last`): step 1 replaces a non-container current
      -- node in place with a fresh container whose kind is decided by the
      -- current segment itself, then step 2 performs the set
      let nextPartIsIndex := (parseIndex part).isSome
      let c1 := if c.isContainer then c
                else if nextPartIsIndex then Json.arr [] else Json.obj []
      match c1 with
      | Json.obj m => Json.obj (mapInsert m part v)
      | Json.arr a =>
          match parseIndex part with
          | some idx => Json.arr ((padTo a idx).set idx v)
          | none => Json.arr a            -- non-numeric index on array: stop
      | other => other
  | c, part, next :: rest' =>
      -- not last: step 1 replaces a non-container current node in place
      -- with a fresh container whose kind is decided by the next segment,
      -- then step 2 ensures the child exists and descends
      let nextPartIsIndex := (parseIndex next).isSome
      let c1 := if c.isContainer then c
                else if nextPartIsIndex then Json.arr [] else Json.obj []
      match c1 with
      | Json.obj m =>
          let m1 := if (mapGet m part).isSome then m
                    else mapInsert m part (freshChild next)
          Json.obj (mapUpdate m1 part (fun child => setGo v child next rest'))
      | Json.arr a =>
          match parseIndex part with
          | some idx =>
              let a1 := padTo a idx
              let a2 := if (a1.getD idx Json.null).isNull
                        then a1.set idx (freshChild next) else a1
              Json.arr (a2.set idx (setGo v (a2.getD idx Json.null) next rest'))
          | none => Json.arr a            -- non-numeric index on array: stop
      | other => other

/-- `set_value_by_path` (lib.rs 669-764). -/
def setValueByPath (root : Json) (path : String) (v : Json) : Json :=
  match splitPath path with
  | [] => root
  | part :: rest => setGo v root part rest

/-- The walk of `delete_value_by_path` (lib.rs 766-813). -/
def deleteGo : Json → String → List String → Json
  | c, part, [] =>
      match c with
      | .obj m => .obj (mapRemoveKey m part)
      | .arr a =>
          match parseIndex part with
          | some idx => if idx < a.length then .arr (a.eraseIdx idx) else .arr a
          | none => .arr a
      | other => other
  | c, part, next :: rest =>
      match c with
      | .obj m =>
          match mapGet m part with
          | some child => .obj (mapUpdate m part (fun _ => deleteGo child next rest))
          | none => .obj m
      | .arr a =>
          match parseIndex part with
          | some idx =>
              match a[idx]? with
              | some child => .arr (a.set idx (deleteGo child next rest))
              | none => .arr a
          | none => .arr a
      | other => other

/-- `delete_value_by_path` (lib.rs 766-813). -/
def deleteValueByPath (root : Json) (path : String) : Json :=
  match splitPath path with
  | [] => root
  | part :: rest => deleteGo root part rest

/-! ## Database façade reads (lib.rs 353-376) -/

/-- `get` (lib.rs 353-367): a missing path yields `Value::Null`. -/
def getValue (data : Json) (path : Option String) : Json :=
  match path with
  | some p =>
      if p = "" then data
      else
        match getValueByPath data p with
        | some v => v
        | none => Json.null
  | none => data

/-- `has` (lib.rs 369-376). -/
def hasPath (data : Json) (path : String) : Bool :=
  if path = "" then true
  else (getValueByPath data path).isSome

/-! ## Query predicates (lib.rs 815-886) -/

/-- `k.starts_with('$')` -/
def startsWithDollar (s : String) : Bool :=
  match s.data with
  | c :: _ => c = '$'
  | [] => false

/-- `match_operator` (lib.rs 850-886). -/
def matchOperator (value : Option Json) (op : String) (target : Json) : Bool :=
  match value with
  | none => op == "$exists" && Json.beq target (Json.bool false)
  | some v =>
      match op with
      | "$eq" => Json.beq v target
      | "$ne" => !Json.beq v target
      | "$gt" =>
          match compareJson v target with
          | some c => decide (c > 0)
          | none => false
      | "$gte" =>
          match compareJson v target with
          | some c => decide (c ≥ 0)
          | none => false
      | "$lt" =>
          match compareJson v target with
          | some c => decide (c < 0)
          | none => false
      | "$lte" =>
          match compareJson v target with
          | some c => decide (c ≤ 0)
          | none => false
      | "$in" =>
          match target with
          | Json.arr a => a.any (fun x => Json.beq x v)
          | _ => false
      | "$nin" =>
          match target with
          | Json.arr a => !(a.any (fun x => Json.beq x v))
          | _ => false
      | "$exists" =>
          match target with
          | Json.bool shouldExist => shouldExist
          | _ => false
      | _ => false

/-- `check_condition` (lib.rs 829-848). -/
def checkCondition (value : Option Json) (condition : Json) : Bool :=
  match condition with
  | Json.obj opMap =>
      let hasOps := opMap.any (fun kv => startsWithDollar kv.1)
      if !hasOps then
        -- `Some(condition) == value`
        match value with
        | some v => Json.beq condition v
        | none => false
      else
        opMap.all (fun kv => matchOperator value kv.1 kv.2)
  | _ =>
      match value with
      | some v => Json.beq v condition
      | none => condition.isNull

/-- `matches_query` (lib.rs 815-827). -/
def matchesQuery (item : Json) (query : Json) : Bool :=
  match query with
  | Json.obj queryMap =>
      queryMap.all (fun kv => checkCondition (getValueByPath item kv.1) kv.2)
  | _ => false

/-! ## Sorting (lib.rs 612-643) -/

/-- The per-key loop of `sort_json`. -/
def sortJsonGo (a b : Json) : List (String × Json) → Ordering
  | [] => .eq
  | (key, orderVal) :: rest =>
      let valA := getValueByPath a key
      let valB := getValueByPath b key
      let order := (asI64 orderVal).getD 1
      let cmp : Ordering :=
        match valA, valB with
        | some va, some vb =>
            match compareJson va vb with
            | some i => if i == 0 then .eq else if i < 0 then .lt else .gt
            | none => .eq
        | some _, none => .gt
        | none, some _ => .lt
        | none, none => .eq
      if cmp != .eq then (if order < 0 then cmp.swap else cmp)
      else sortJsonGo a b rest

/-- `sort_json` (lib.rs 612-643). -/
def sortJson (a b : Json) (sortOpts : Json) : Ordering :=
  match sortOpts with
  | Json.obj m => sortJsonGo a b m
  | _ => .eq

/-- Stable insertion used to model `Vec::sort_by` (a stable sort ordered by
the comparator): an element is placed after every already-placed element
that does not compare strictly greater. -/
def stableInsert (cmp : Json → Json → Ordering) (x : Json) : List Json → List Json
  | [] => [x]
  | y :: ys => if cmp y x = .gt then x :: y :: ys else y :: stableInsert cmp x ys

/-- `results.sort_by(...)`: stable sort by a comparator. -/
def stableSortBy (cmp : Json → Json → Ordering) (l : List Json) : List Json :=
  l.foldl (fun acc x => stableInsert cmp x acc) []

/-! ## find (lib.rs 500-569) -/

/-- `QueryOptions` (lib.rs 602-608); `u32` fields are modelled as `Nat`. -/
structure QueryOptions where
  limit : Option Nat
  skip : Option Nat
  sort : Option Json
  select : Option (List String)

/-- The projection step of `find` (lib.rs 543-566) for a non-empty `select`
list, translated faithfully: each reconstruction is written by
`set_value_by_path` into `Value::Object(map.clone())` — a temporary that is
discarded — so `map` itself is never modified and the returned object is
empty. -/
def projectItem (fields : List String) (item : Json) : Json :=
  let m : List (String × Json) :=
    fields.foldl
      (fun acc field =>
        match getValueByPath item field with
        | some val =>
            let _discarded := setValueByPath (Json.obj acc) field val
            acc
        | none => acc)
      []
  Json.obj m

/-- `find` (lib.rs 500-569): filter, sort, skip, limit, project.
A collection that is neither an array nor an object returns `[]` (the
source returns early with an empty vector, which the pipeline below also
yields on the empty item list). -/
def find (data : Json) (path : String) (query : Json)
    (options : Option QueryOptions) : List Json :=
  let collection := getValueByPath data path
  let itemsRef : List Json :=
    match collection with
    | some (Json.arr a) => a
    | some (Json.obj m) => m.map (fun kv => kv.2)
    | _ => []
  let results := itemsRef.filter (fun item => matchesQuery item query)
  let results :=
    match options with
    | some o =>
        match o.sort with
        | some sortOpts => stableSortBy (fun a b => sortJson a b sortOpts) results
        | none => results
    | none => results
  let skipN : Nat :=
    match options with
    | some o => o.skip.getD 0
    | none => 0
  let afterSkip := results.drop skipN
  let limitN : Nat :=
    match options with
    | some o => o.limit.getD 4294967295   -- u32::MAX
    | none => 18446744073709551615        -- usize::MAX
  let limited := afterSkip.take limitN
  limited.map (fun item =>
    match options with
    | some o =>
        match o.select with
        | some fields => if fields = [] then item else projectItem fields item
        | none => item
    | none => item)

/-! ## Operations, WAL replay and the file-system state (lib.rs 18-22,
90-126, 177-224, 259-351, 378-498) -/

/-- `enum Operation` (lib.rs 18-22). -/
inductive Operation where
  | set (path : String) (value : Json)
  | delete (path : String)

/-- Applying one operation to the in-memory tree: the `match op` shared by
`replay_wal` (lib.rs 206-221), `set`/`delete` (lib.rs 386-392, 402-407) and
`batch` (lib.rs 479-496).  An empty path replaces the root (`Set`) or
resets it to an empty object (`Delete`). -/
def applyOperation (data : Json) (op : Operation) : Json :=
  match op with
  | .set p v => if p = "" then v else setValueByPath data p v
  | .delete p => if p = "" then Json.obj [] else deleteValueByPath data p

/-- A line of an unencrypted WAL, represented by its serde parse outcome:
`empty` for `line.is_empty()`, `parsed op` when the bytes deserialise as an
`Operation`, `malformed` when they do not. -/
inductive WalLine where
  | empty
  | parsed (op : Operation)
  | malformed

/-- Replay of one unencrypted WAL line (lib.rs 182-221): an empty line is
skipped; bytes that fail to parse are decoded as the sentinel
`Operation::Delete { path: "" }` and applied. -/
def replayLinePlain (data : Json) (l : WalLine) : Json :=
  match l with
  | .empty => data
  | .parsed op => applyOperation data op
  | .malformed => applyOperation data (Operation.delete "")

/-- `replay_wal` (lib.rs 177-224), unencrypted. -/
def replayWalPlain (data : Json) (lines : List WalLine) : Json :=
  lines.foldl replayLinePlain data

/-- A line of an encrypted WAL, represented by the stage its processing
reaches (lib.rs 187-200): `empty` (`line.is_empty()`), `blankUtf8`
(`json_str.trim().is_empty()`), `notJson` (the envelope fails to parse,
`unwrap_or(Value::Null)`), `jsonNull` (the envelope parses to JSON null),
`decryptFails` (`decrypt_value` errors), `plaintextNotOperation` (the
decrypted plaintext does not deserialise as an `Operation`), or
`plaintextOperation op`. -/
inductive EncWalLine where
  | empty
  | blankUtf8
  | notJson
  | jsonNull
  | decryptFails
  | plaintextNotOperation
  | plaintextOperation (op : Operation)

/-- Replay of one encrypted WAL line (lib.rs 187-221): every failure before
operation decoding is a `continue`; a decrypted plaintext that is not an
operation becomes the sentinel `Operation::Delete { path: "" }`. -/
def replayLineEnc (data : Json) (l : EncWalLine) : Json :=
  match l with
  | .empty => data
  | .blankUtf8 => data
  | .notJson => data
  | .jsonNull => data
  | .decryptFails => data
  | .plaintextNotOperation => applyOperation data (Operation.delete "")
  | .plaintextOperation op => applyOperation data op

/-- `replay_wal` (lib.rs 177-224), encrypted. -/
def replayWalEnc (data : Json) (lines : List EncWalLine) : Json :=
  lines.foldl replayLineEnc data

/-- The observable state of one database instance with WAL enabled and no
encryption: the in-memory tree, the parsed contents of `<file>` and
`<file>.tmp` (`none` = the file does not exist), the records on disk in
`<file>.wal`, and the records sitting unflushed in the `BufWriter` wrapped
around the append-mode WAL handle. -/
structure DbState where
  tree : Json
  snapshotFile : Option Json
  tmpFile : Option Json
  walFile : List Operation
  walBuf : List Operation

/-- A freshly constructed database (lib.rs 37-88): empty root, WAL file
created empty. -/
def dbInit : DbState :=
  { tree := Json.obj []
    snapshotFile := none
    tmpFile := none
    walFile := []
    walBuf := [] }

/-- `append_wal` (lib.rs 259-292), unencrypted: the record is written to
the `BufWriter` and not flushed (the flush call is commented out "for
performance"). -/
def dbAppendWal (s : DbState) (op : Operation) : DbState :=
  { s with walBuf := s.walBuf ++ [op] }

/-- `set` (lib.rs 378-394): append to the WAL, then apply in memory. -/
def dbSetOp (s : DbState) (p : String) (v : Json) : DbState :=
  let s1 := dbAppendWal s (.set p v)
  { s1 with tree := applyOperation s1.tree (.set p v) }

/-- `delete` (lib.rs 396-409). -/
def dbDeleteOp (s : DbState) (p : String) : DbState :=
  let s1 := dbAppendWal s (.delete p)
  { s1 with tree := applyOperation s1.tree (.delete p) }

/-- `save` (lib.rs 294-351), step by step:
1. serialise the tree and write it to `<file>.tmp`;
2. `fs::rename(tmp, filename)` — the snapshot now equals the tree and no
   `.tmp` remains;
3. reopen `<file>.wal` with `truncate(true)` — the on-disk WAL becomes
   empty;
4. `*wal_file = BufWriter::new(wal_raw)` — assigning drops the *old*
   `BufWriter`, whose `Drop` flushes its buffered bytes into the original
   append-mode handle, appending them to the just-truncated WAL file. -/
def dbSave (s : DbState) : DbState :=
  let s1 := { s with tmpFile := some s.tree }
  let s2 := { s1 with snapshotFile := s1.tmpFile, tmpFile := none }
  let s3 := { s2 with walFile := [] }
  { s3 with walFile := s3.walFile ++ s3.walBuf, walBuf := [] }

/-- `load` (lib.rs 90-126) for an unencrypted database, ignoring the
`.tmp` recovery rename (not exercised here).  `file` is the snapshot:
`none` = `<file>` does not exist, `some none` = it exists but its bytes do
not parse as JSON, `some (some j)` = it parses as `j`.  `readFails` models
an I/O failure of `fs::read`.  A parse failure of an existing unencrypted
snapshot is swallowed by `unwrap_or_else` (lib.rs 112-113): the tree
becomes an empty object and `load` succeeds. -/
def dbLoadPlain (file : Option (Option Json)) (readFails : Bool)
    (wal : List WalLine) : Except String Json :=
  match file with
  | none => Except.ok (replayWalPlain (Json.obj []) wal)
  | some parsed =>
      if readFails then Except.error "Failed to read file"
      else
        let base := match parsed with
          | some j => j
          | none => Json.obj []
        Except.ok (replayWalPlain base wal)

/-! ## batch (lib.rs 419-498) -/

/-- `Value::get` with a string index (objects only). -/
def jsonGetKey (v : Json) (k : String) : Option Json :=
  match v with
  | .obj m => mapGet m k
  | _ => none

/-- `Value::as_str`. -/
def asStr : Json → Option String
  | .str s => some s
  | _ => none

/-- Decoding of one `batch` entry (lib.rs 421-439): `type` and `path`
default to `""` when missing or not a string; an unknown `type` produces no
operation; a `set` without `value` defaults to `Value::Null`. -/
def batchDecodeOp (opVal : Json) : Option Operation :=
  let typeStr := ((jsonGetKey opVal "type").bind asStr).getD ""
  let path := ((jsonGetKey opVal "path").bind asStr).getD ""
  match typeStr with
  | "set" => some (.set path (((jsonGetKey opVal "value")).getD Json.null))
  | "delete" => some (.delete path)
  | _ => none

/-- The `operations` vector built by `batch`. -/
def batchDecode (ops : List Json) : List Operation :=
  ops.filterMap batchDecodeOp

/-- `batch` (lib.rs 419-498), unencrypted with WAL enabled: append every
decoded operation to the WAL writer, then apply them in order. -/
def dbBatch (s : DbState) (ops : List Json) : DbState :=
  let operations := batchDecode ops
  let s1 := { s with walBuf := s.walBuf ++ operations }
  { s1 with tree := operations.foldl applyOperation s1.tree }

/-! ## Tree-level façade mutations (for the path-algebra claims) -/

/-- The in-memory effect of `set` (lib.rs 386-392). -/
def dbSet (data : Json) (p : String) (v : Json) : Json :=
  applyOperation data (.set p v)

/-- The in-memory effect of `delete` (lib.rs 402-407). -/
def dbDelete (data : Json) (p : String) : Json :=
  applyOperation data (.delete p)

/-- Whether the walk of `delete_value_by_path` ends by splicing an element
out of an array (`arr.remove(idx)` with `idx < arr.len()`), the one
terminal action that shifts later elements. -/
def deleteSplices : Json → String → List String → Bool
  | c, part, [] =>
      match c with
      | .arr a =>
          match parseIndex part with
          | some idx => decide (idx < a.length)
          | none => false
      | _ => false
  | c, part, next :: rest =>
      match c with
      | .obj m =>
          match mapGet m part with
          | some child => deleteSplices child next rest
          | none => false
      | .arr a =>
          match parseIndex part with
          | some idx =>
              match a[idx]? with
              | some child => deleteSplices child next rest
              | none => false
          | none => false
      | _ => false

/-- `deleteSplices` lifted to a façade path. -/
def dbDeleteSplices (data : Json) (p : String) : Bool :=
  if p = "" then false
  else
    match splitPath p with
    | [] => false
    | part :: rest => deleteSplices data part rest

/-! ## Claim theorems -/

/-- `target == &Value::Bool(false)` holds exactly for the value
`Bool(false)`. -/
theorem beq_boolFalse_iff (t : Json) :
    Json.beq t (Json.bool false) = true ↔ t = Json.bool false := by
  cases t with
  | null => simp [Json.beq]
  | bool b => cases b <;> simp [Json.beq]
  | num n => simp [Json.beq]
  | str s => simp [Json.beq]
  | arr items => cases items <;> simp [Json.beq]
  | obj entries => cases entries <;> simp [Json.beq]

/-- C1, counterexample: a WAL line whose bytes do not parse as an operation
is not a no-op during replay — it is decoded as the sentinel
`Delete { path: "" }` and resets the tree `{"a":1}` to the empty object. -/
theorem c1_wal_sentinel_counterexample :
    replayWalPlain (Json.obj [("a", Json.num 1)]) [WalLine.malformed] = Json.obj [] ∧
    replayWalPlain (Json.obj [("a", Json.num 1)]) [WalLine.malformed]
      ≠ Json.obj [("a", Json.num 1)] := by
  refine ⟨rfl, ?_⟩
  intro h
  have h1 : hasPath (replayWalPlain (Json.obj [("a", Json.num 1)]) [WalLine.malformed]) "a"
      = false := rfl
  rw [h] at h1
  exact absurd h1 (by decide)

/-- C1, amended: during WAL replay, a line is skipped (a true no-op) only
when it fails before operation decoding — an empty line, or in encrypted
mode a blank line, a line that is not JSON, a line that parses to JSON
null, or a line whose decryption fails.  A non-empty line whose bytes
(unencrypted) or decrypted plaintext (encrypted) do not parse as an
operation is applied as the sentinel `Delete ""`, which resets the whole
tree to an empty object. -/
theorem c1_wal_sentinel_amended (data : Json) :
    replayWalPlain data [WalLine.empty] = data ∧
    replayWalPlain data [WalLine.malformed] = Json.obj [] ∧
    replayWalEnc data [EncWalLine.empty] = data ∧
    replayWalEnc data [EncWalLine.blankUtf8] = data ∧
    replayWalEnc data [EncWalLine.notJson] = data ∧
    replayWalEnc data [EncWalLine.jsonNull] = data ∧
    replayWalEnc data [EncWalLine.decryptFails] = data ∧
    replayWalEnc data [EncWalLine.plaintextNotOperation] = Json.obj [] :=
  ⟨rfl, rfl, rfl, rfl, rfl, rfl, rfl, rfl⟩

/-- C2: evaluating `find` at the spec's S4 input.  The projection loop of
`find` writes each reconstructed field into `Value::Object(map.clone())`, a
temporary that is immediately discarded, so the returned item is the empty
object `{}` rather than `{"n":"c"}`. -/
theorem c2_projection_bug_eval :
    find
      (Json.obj [("users", Json.arr
        [Json.obj [("n", Json.str "a"), ("age", Json.num 30)],
         Json.obj [("n", Json.str "b"), ("age", Json.num 20)],
         Json.obj [("n", Json.str "c"), ("age", Json.num 40)]])])
      "users"
      (Json.obj [("age", Json.obj [("$gte", Json.num 25)])])
      (some ⟨some 1, none, some (Json.obj [("age", Json.num (-1))]), some ["n"]⟩)
      = [Json.obj []] ∧
    [Json.obj []] ≠ [Json.obj [("n", Json.str "c")]] := by
  refine ⟨rfl, ?_⟩
  intro h
  have h1 : hasPath (Json.obj []) "n" = hasPath (Json.obj [("n", Json.str "c")]) "n" := by
    rw [List.cons.injEq] at h
    rw [h.1]
  exact absurd h1 (by decide)

/-- C3: evaluating `save` after one `set` whose WAL record is still sitting
unflushed in the `BufWriter`.  The snapshot equals the tree and no `.tmp`
remains, but the WAL file is NOT empty: `save` truncates the WAL and then
replaces the `BufWriter`, and dropping the old writer flushes the buffered
record into the append-mode handle, writing it back into the
just-truncated WAL. -/
theorem c3_save_wal_eval :
    (dbSave (dbSetOp dbInit "a" (Json.num 1))).snapshotFile
      = some (dbSave (dbSetOp dbInit "a" (Json.num 1))).tree ∧
    (dbSave (dbSetOp dbInit "a" (Json.num 1))).tmpFile = none ∧
    (dbSave (dbSetOp dbInit "a" (Json.num 1))).walFile
      = [Operation.set "a" (Json.num 1)] ∧
    (dbSave (dbSetOp dbInit "a" (Json.num 1))).walFile ≠ [] :=
  ⟨rfl, rfl, rfl, fun h => List.cons_ne_nil _ _ h⟩

/-- C4, counterexample: for an unencrypted database whose snapshot file
exists but does not parse as JSON, `load` does not return a parse error —
it succeeds, with the tree silently replaced by an empty object. -/
theorem c4_plain_parse_counterexample :
    dbLoadPlain (some none) false [] = Except.ok (Json.obj []) ∧
    (dbLoadPlain (some none) false []).isOk = true :=
  ⟨rfl, rfl⟩

/-- C4, amended: for an unencrypted database whose snapshot file exists but
does not parse as JSON, `load` succeeds, substituting an empty object for
the snapshot and then replaying the WAL on top of it
(`serde_json::from_slice(..).unwrap_or_else(|_| Value::Object(..))`). -/
theorem c4_plain_parse_amended (wal : List WalLine) :
    dbLoadPlain (some none) false wal
      = Except.ok (replayWalPlain (Json.obj []) wal) := rfl

/-- C5, counterexample: with an ascending single-key sort, the item missing
the sort field compares `Less` — it sorts BEFORE the present one, not after
it as the claim states (`(None, Some(_)) => Ordering::Less` in
`sort_json`). -/
theorem c5_sort_missing_counterexample :
    sortJson (Json.obj []) (Json.obj [("x", Json.num 1)])
        (Json.obj [("x", Json.num 1)]) = Ordering.lt ∧
    sortJson (Json.obj []) (Json.obj [("x", Json.num 1)])
        (Json.obj [("x", Json.num 1)]) ≠ Ordering.gt :=
  ⟨rfl, by decide⟩

/-- C5, amended: for a single-key sort spec, an item missing the sort field
sorts BEFORE an item that has it when the order is ascending (non-negative)
and after it when descending (negative); a pair whose present field values
are non-comparable under `compare_json` is treated as equal. -/
theorem c5_sort_missing_amended (k : String) (o : Int) (a b c d vc vd : Json)
    (ha : getValueByPath a k = none)
    (hb : (getValueByPath b k).isSome = true)
    (hc : getValueByPath c k = some vc)
    (hd : getValueByPath d k = some vd)
    (hcmp : compareJson vc vd = none) :
    (sortJson a b (Json.obj [(k, Json.num o)])
        = if o < 0 then Ordering.gt else Ordering.lt) ∧
    (sortJson b a (Json.obj [(k, Json.num o)])
        = if o < 0 then Ordering.lt else Ordering.gt) ∧
    sortJson c d (Json.obj [(k, Json.num o)]) = Ordering.eq := by
  obtain ⟨vb, hvb⟩ := Option.isSome_iff_exists.mp hb
  have hlt : (Ordering.lt != Ordering.eq) = true := by decide
  have hgt : (Ordering.gt != Ordering.eq) = true := by decide
  have heq : (Ordering.eq != Ordering.eq) = false := by decide
  refine ⟨?_, ?_, ?_⟩
  · by_cases ho : o < 0 <;>
      simp [sortJson, sortJsonGo, ha, hvb, asI64, ho, Ordering.swap, hlt]
  · by_cases ho : o < 0 <;>
      simp [sortJson, sortJsonGo, ha, hvb, asI64, ho, Ordering.swap, hgt]
  · simp [sortJson, sortJsonGo, hc, hd, hcmp, heq]

/-- C5, witness for the amended theorem at a concrete input. -/
theorem c5_sort_missing_amended_witness :
    getValueByPath (Json.obj []) "x" = none ∧
    (getValueByPath (Json.obj [("x", Json.num 1)]) "x").isSome = true ∧
    getValueByPath (Json.obj [("x", Json.bool true)]) "x" = some (Json.bool true) ∧
    getValueByPath (Json.obj [("x", Json.null)]) "x" = some Json.null ∧
    compareJson (Json.bool true) Json.null = none ∧
    ((sortJson (Json.obj []) (Json.obj [("x", Json.num 1)])
        (Json.obj [("x", Json.num (-1))])
        = if (-1 : Int) < 0 then Ordering.gt else Ordering.lt) ∧
     (sortJson (Json.obj [("x", Json.num 1)]) (Json.obj [])
        (Json.obj [("x", Json.num (-1))])
        = if (-1 : Int) < 0 then Ordering.lt else Ordering.gt) ∧
     sortJson (Json.obj [("x", Json.bool true)]) (Json.obj [("x", Json.null)])
        (Json.obj [("x", Json.num (-1))]) = Ordering.eq) :=
  ⟨rfl, rfl, rfl, rfl, rfl,
   c5_sort_missing_amended "x" (-1) _ _ _ _ _ _ rfl rfl rfl rfl rfl⟩

/-- C6: when the queried field is missing, an operator-bag condition
matches exactly when all its operators individually match, and the only
operator that matches a missing field is `$exists` with target `false`; in
particular `$ne` and `$nin` against a missing field are false. -/
theorem c6_missing_field_ops (bag : List (String × Json)) (op : String) (t : Json)
    (h : bag.any (fun kv => startsWithDollar kv.1) = true) :
    checkCondition none (Json.obj bag)
      = bag.all (fun kv => matchOperator none kv.1 kv.2) ∧
    (matchOperator none op t = true ↔ op = "$exists" ∧ t = Json.bool false) ∧
    matchOperator none "$ne" t = false ∧
    matchOperator none "$nin" t = false := by
  refine ⟨?_, ?_, ?_, ?_⟩
  · simp [checkCondition, h]
  · simp [matchOperator, beq_boolFalse_iff]
  · simp [matchOperator]
  · simp [matchOperator]

/-- C6, witness for the theorem at a concrete operator bag. -/
theorem c6_missing_field_ops_witness :
    ([(("$ne" : String), Json.num 1)].any (fun kv => startsWithDollar kv.1) = true) ∧
    (checkCondition none (Json.obj [(("$ne" : String), Json.num 1)])
      = [(("$ne" : String), Json.num 1)].all (fun kv => matchOperator none kv.1 kv.2) ∧
    (matchOperator none "$exists" (Json.bool false) = true
      ↔ ("$exists" : String) = "$exists" ∧ Json.bool false = Json.bool false) ∧
    matchOperator none "$ne" (Json.bool false) = false ∧
    matchOperator none "$nin" (Json.bool false) = false) :=
  ⟨by decide, c6_missing_field_ops [("$ne", Json.num 1)] "$exists" (Json.bool false) (by decide)⟩

/-- C9: for a non-empty path that resolves to no node, the façade `get`
returns JSON null and `has` returns false; for a stored null at the path,
`get` also returns JSON null while `has` returns true — so `get` cannot
distinguish the two but `has` can. -/
theorem c9_get_null_missing (t : Json) (p : String) (hp : p ≠ "") :
    (getValueByPath t p = none →
      getValue t (some p) = Json.null ∧ hasPath t p = false) ∧
    (getValueByPath t p = some Json.null →
      getValue t (some p) = Json.null ∧ hasPath t p = true) := by
  constructor
  · intro h
    simp [getValue, hasPath, hp, h]
  · intro h
    simp [getValue, hasPath, hp, h]

/-- C9, witness at a concrete tree holding a stored null and missing key. -/
theorem c9_get_null_missing_witness :
    (("a" : String) ≠ "") ∧
    ((getValueByPath (Json.obj [("b", Json.null)]) "a" = none →
      getValue (Json.obj [("b", Json.null)]) (some "a") = Json.null ∧
      hasPath (Json.obj [("b", Json.null)]) "a" = false) ∧
    (getValueByPath (Json.obj [("b", Json.null)]) "a" = some Json.null →
      getValue (Json.obj [("b", Json.null)]) (some "a") = Json.null ∧
      hasPath (Json.obj [("b", Json.null)]) "a" = true)) :=
  ⟨by decide, c9_get_null_missing (Json.obj [("b", Json.null)]) "a" (by decide)⟩

/-- C10: a batch entry whose `type` is neither `"set"` nor `"delete"`
contributes no operation at all — it is neither appended to the WAL nor
applied — and an entry `{"type":"delete"}` with no `path` decodes with the
path defaulted to `""`, whose application resets the root to an empty
object. -/
theorem c10_batch_decode (pre post : List Json) (e : Json) (t : Json)
    (h1 : ((jsonGetKey e "type").bind asStr).getD "" ≠ "set")
    (h2 : ((jsonGetKey e "type").bind asStr).getD "" ≠ "delete") :
    batchDecode (pre ++ e :: post) = batchDecode (pre ++ post) ∧
    (∀ s : DbState, dbBatch s (pre ++ e :: post) = dbBatch s (pre ++ post)) ∧
    batchDecodeOp (Json.obj [("type", Json.str "delete")])
      = some (Operation.delete "") ∧
    applyOperation t (Operation.delete "") = Json.obj [] := by
  have hnone : batchDecodeOp e = none := by
    simp only [batchDecodeOp]
  refine ⟨?_, ?_, rfl, rfl⟩
  · simp [batchDecode, List.filterMap_append, List.filterMap_cons, hnone]
  · intro s
    simp [dbBatch, batchDecode, List.filterMap_append, List.filterMap_cons, hnone]

/-- C10, witness at a concrete bogus entry. -/
theorem c10_batch_decode_witness :
    ((jsonGetKey (Json.obj [("type", Json.str "noop")]) "type").bind asStr).getD "" ≠ "set" ∧
    ((jsonGetKey (Json.obj [("type", Json.str "noop")]) "type").bind asStr).getD "" ≠ "delete" ∧
    (batchDecode ([] ++ Json.obj [("type", Json.str "noop")] :: []) = batchDecode ([] ++ []) ∧
    (∀ s : DbState, dbBatch s ([] ++ Json.obj [("type", Json.str "noop")] :: [])
      = dbBatch s ([] ++ [])) ∧
    batchDecodeOp (Json.obj [("type", Json.str "delete")])
      = some (Operation.delete "") ∧
    applyOperation Json.null (Operation.delete "") = Json.obj []) :=
  ⟨by decide, by decide,
   c10_batch_decode [] [] (Json.obj [("type", Json.str "noop")]) Json.null
     (by decide) (by decide)⟩

/-! ## Lemmas about the map and list primitives -/

theorem mapInsert_idem (m : List (String × Json)) (k : String) (v : Json) :
    mapInsert (mapInsert m k v) k v = mapInsert m k v := by
  induction m with
  | nil => simp [mapInsert]
  | cons hd tl ih =>
      obtain ⟨k', v'⟩ := hd
      by_cases h : k' = k <;> simp [mapInsert, h, ih]

theorem mapGet_mapInsert_self (m : List (String × Json)) (k : String) (v : Json) :
    mapGet (mapInsert m k v) k = some v := by
  induction m with
  | nil => simp [mapInsert, mapGet]
  | cons hd tl ih =>
      obtain ⟨k', v'⟩ := hd
      by_cases h : k' = k <;> simp [mapInsert, mapGet, h, ih]

theorem mapGet_mapUpdate (m : List (String × Json)) (k : String) (f : Json → Json) :
    mapGet (mapUpdate m k f) k = (mapGet m k).map f := by
  induction m with
  | nil => simp [mapUpdate, mapGet]
  | cons hd tl ih =>
      obtain ⟨k', v'⟩ := hd
      by_cases h : k' = k <;> simp [mapUpdate, mapGet, h, ih]

theorem mapUpdate_mapUpdate (m : List (String × Json)) (k : String)
    (f g : Json → Json) :
    mapUpdate (mapUpdate m k f) k g = mapUpdate m k (fun x => g (f x)) := by
  induction m with
  | nil => simp [mapUpdate]
  | cons hd tl ih =>
      obtain ⟨k', v'⟩ := hd
      by_cases h : k' = k <;> simp [mapUpdate, h, ih]

theorem length_padTo (a : List Json) (i : Nat) :
    (padTo a i).length = max a.length (i + 1) := by
  simp [padTo]
  omega

theorem padTo_eq_of_le (a : List Json) (i : Nat) (h : i + 1 ≤ a.length) :
    padTo a i = a := by
  simp [padTo, Nat.sub_eq_zero_of_le h]

theorem getD_set_self (l : List Json) (i : Nat) (v : Json) (h : i < l.length) :
    (l.set i v).getD i Json.null = v := by
  induction l generalizing i with
  | nil => simp at h
  | cons hd tl ih =>
      cases i with
      | zero => simp [List.set, List.getD]
      | succ j =>
          simp only [List.set, List.getD_cons_succ]
          exact ih j (by simpa using h)

theorem set_getD_self (l : List Json) (i : Nat) (h : i < l.length) :
    l.set i (l.getD i Json.null) = l := by
  induction l generalizing i with
  | nil => simp at h
  | cons hd tl ih =>
      cases i with
      | zero => simp [List.set, List.getD]
      | succ j =>
          simp only [List.set, List.getD_cons_succ, List.cons.injEq, true_and]
          exact ih j (by simpa using h)

/-- `set_value_by_path` always leaves a container at the node it worked on:
every arm of the loop body returns an object or an array (the `_ => return`
arm is unreachable because step 1 made the current node a container). -/
theorem setGo_isContainer (v c : Json) (part : String) (rest : List String) :
    (setGo v c part rest).isContainer = true := by
  cases rest with
  | nil =>
      cases c <;> cases hpi : parseIndex part <;>
        simp [setGo, hpi, Json.isContainer, Json.isObj, Json.isArr]
  | cons next rest' =>
      cases c <;> cases hpn : parseIndex next <;> cases hpi : parseIndex part <;>
        simp [setGo, hpn, hpi, Json.isContainer, Json.isObj, Json.isArr]

theorem isNull_eq_false_of_isContainer (w : Json) (h : w.isContainer = true) :
    w.isNull = false := by
  cases w <;> simp_all [Json.isContainer, Json.isObj, Json.isArr, Json.isNull]

/-! ## Idempotence of set and (restricted) delete -/

theorem isContainer_obj (m : List (String × Json)) :
    (Json.obj m).isContainer = true := rfl

theorem isContainer_arr (a : List Json) :
    (Json.arr a).isContainer = true := rfl

theorem setGo_not_container_nil (v c : Json) (part : String)
    (h : c.isContainer = false) :
    setGo v c part [] = setGo v (freshChild part) part [] := by
  cases hpn : parseIndex part <;>
    simp [setGo, freshChild, h, hpn, isContainer_obj, isContainer_arr]

theorem setGo_not_container_cons (v c : Json) (part next : String)
    (rest' : List String) (h : c.isContainer = false) :
    setGo v c part (next :: rest') = setGo v (freshChild next) part (next :: rest') := by
  cases hpn : parseIndex next <;>
    simp [setGo, freshChild, h, hpn, isContainer_obj, isContainer_arr]

theorem setGo_nil_obj_idem (v : Json) (m : List (String × Json)) (part : String) :
    setGo v (setGo v (Json.obj m) part []) part [] = setGo v (Json.obj m) part [] := by
  simp [setGo, Json.isContainer, Json.isObj, Json.isArr, mapInsert_idem]

theorem setGo_nil_arr_idem (v : Json) (a : List Json) (part : String) :
    setGo v (setGo v (Json.arr a) part []) part [] = setGo v (Json.arr a) part [] := by
  cases hpi : parseIndex part with
  | none => simp [setGo, hpi, Json.isContainer, Json.isObj, Json.isArr]
  | some idx =>
      have hlen : idx + 1 ≤ ((padTo a idx).set idx v).length := by
        rw [List.length_set, length_padTo]
        omega
      simp [setGo, hpi, Json.isContainer, Json.isObj, Json.isArr,
        padTo_eq_of_le _ _ hlen, List.set_set]

theorem setGo_scalar_nil_idem (v c : Json) (part : String)
    (h : c.isContainer = false) :
    setGo v (setGo v c part []) part [] = setGo v c part [] := by
  rw [setGo_not_container_nil v c part h]
  cases hpp : parseIndex part with
  | none =>
      simp only [freshChild, hpp, Option.isSome_none, Bool.false_eq_true, if_false]
      exact setGo_nil_obj_idem v [] part
  | some j =>
      simp only [freshChild, hpp, Option.isSome_some, if_true]
      exact setGo_nil_arr_idem v [] part

theorem setGo_cons_obj_eq (v : Json) (m : List (String × Json))
    (part next : String) (rest' : List String) :
    setGo v (Json.obj m) part (next :: rest')
      = Json.obj (mapUpdate
          (if (mapGet m part).isSome then m else mapInsert m part (freshChild next))
          part (fun child => setGo v child next rest')) := by
  simp [setGo, Json.isContainer, Json.isObj, Json.isArr]

theorem setGo_cons_arr_eq (v : Json) (a : List Json) (part next : String)
    (rest' : List String) (idx : Nat) (hpi : parseIndex part = some idx) :
    setGo v (Json.arr a) part (next :: rest')
      = Json.arr ((if ((padTo a idx).getD idx Json.null).isNull
                   then (padTo a idx).set idx (freshChild next)
                   else padTo a idx).set idx
          (setGo v ((if ((padTo a idx).getD idx Json.null).isNull
                     then (padTo a idx).set idx (freshChild next)
                     else padTo a idx).getD idx Json.null) next rest')) := by
  simp [setGo, hpi, Json.isContainer, Json.isObj, Json.isArr]

theorem setGo_cons_obj_idem (v : Json) (next : String) (rest' : List String)
    (ih : ∀ (c : Json) (part : String),
      setGo v (setGo v c part rest') part rest' = setGo v c part rest')
    (m : List (String × Json)) (part : String) :
    setGo v (setGo v (Json.obj m) part (next :: rest')) part (next :: rest')
      = setGo v (Json.obj m) part (next :: rest') := by
  rw [setGo_cons_obj_eq v m part next rest']
  set f : Json → Json := fun child => setGo v child next rest' with hf
  set m1 : List (String × Json) :=
    if (mapGet m part).isSome then m else mapInsert m part (freshChild next) with hm1
  have hx : ∃ x, mapGet m1 part = some x := by
    rw [hm1]
    by_cases h : (mapGet m part).isSome = true
    · obtain ⟨x, hx⟩ := Option.isSome_iff_exists.mp h
      exact ⟨x, by simp [h, hx]⟩
    · exact ⟨freshChild next, by simp [h, mapGet_mapInsert_self]⟩
  obtain ⟨x, hx⟩ := hx
  have hget2 : mapGet (mapUpdate m1 part f) part = some (f x) := by
    rw [mapGet_mapUpdate, hx]
    rfl
  rw [setGo_cons_obj_eq v (mapUpdate m1 part f) part next rest']
  rw [hget2]
  simp only [Option.isSome_some, if_true]
  rw [mapUpdate_mapUpdate]
  have hff : (fun x => f (f x)) = f := funext (fun child => ih child next)
  rw [hff]

theorem setGo_cons_arr_aux (v : Json) (next : String) (rest' : List String)
    (ih : ∀ (c : Json) (part : String),
      setGo v (setGo v c part rest') part rest' = setGo v c part rest')
    (part : String) (idx : Nat) (hpi : parseIndex part = some idx)
    (a2 : List Json) (hlen : idx + 1 ≤ a2.length) :
    setGo v (Json.arr (a2.set idx (setGo v (a2.getD idx Json.null) next rest')))
        part (next :: rest')
      = Json.arr (a2.set idx (setGo v (a2.getD idx Json.null) next rest')) := by
  set w := setGo v (a2.getD idx Json.null) next rest' with hw
  have hLlen : idx + 1 ≤ (a2.set idx w).length := by
    rw [List.length_set]
    exact hlen
  have hpad : padTo (a2.set idx w) idx = a2.set idx w := padTo_eq_of_le _ _ hLlen
  have hgetD : (a2.set idx w).getD idx Json.null = w :=
    getD_set_self _ _ _ (by omega)
  have hwnn : w.isNull = false :=
    isNull_eq_false_of_isContainer _ (setGo_isContainer v _ next rest')
  have hw2 : setGo v w next rest' = w := ih (a2.getD idx Json.null) next
  rw [setGo_cons_arr_eq v (a2.set idx w) part next rest' idx hpi]
  rw [hpad, hgetD, hwnn]
  simp only [Bool.false_eq_true, if_false]
  rw [hgetD, hw2, List.set_set]

theorem setGo_cons_arr_idem (v : Json) (next : String) (rest' : List String)
    (ih : ∀ (c : Json) (part : String),
      setGo v (setGo v c part rest') part rest' = setGo v c part rest')
    (a : List Json) (part : String) :
    setGo v (setGo v (Json.arr a) part (next :: rest')) part (next :: rest')
      = setGo v (Json.arr a) part (next :: rest') := by
  cases hpi : parseIndex part with
  | none => simp [setGo, hpi, Json.isContainer, Json.isObj, Json.isArr]
  | some idx =>
      rw [setGo_cons_arr_eq v a part next rest' idx hpi]
      set a2 : List Json :=
        if ((padTo a idx).getD idx Json.null).isNull
        then (padTo a idx).set idx (freshChild next)
        else padTo a idx with ha2
      have hlen : idx + 1 ≤ a2.length := by
        rw [ha2]
        split <;> simp [List.length_set, length_padTo]
      exact setGo_cons_arr_aux v next rest' ih part idx hpi a2 hlen

theorem setGo_scalar_cons_idem (v c : Json) (part next : String) (rest' : List String)
    (ih : ∀ (c : Json) (part : String),
      setGo v (setGo v c part rest') part rest' = setGo v c part rest')
    (h : c.isContainer = false) :
    setGo v (setGo v c part (next :: rest')) part (next :: rest')
      = setGo v c part (next :: rest') := by
  rw [setGo_not_container_cons v c part next rest' h]
  cases hpn : parseIndex next with
  | none =>
      simp only [freshChild, hpn, Option.isSome_none, Bool.false_eq_true, if_false]
      exact setGo_cons_obj_idem v next rest' ih [] part
  | some j =>
      simp only [freshChild, hpn, Option.isSome_some, if_true]
      exact setGo_cons_arr_idem v next rest' ih [] part

theorem setGo_idem (v : Json) (rest : List String) :
    ∀ (c : Json) (part : String),
      setGo v (setGo v c part rest) part rest = setGo v c part rest := by
  induction rest with
  | nil =>
      intro c part
      cases c with
      | obj m => exact setGo_nil_obj_idem v m part
      | arr a => exact setGo_nil_arr_idem v a part
      | null => exact setGo_scalar_nil_idem v Json.null part rfl
      | bool b => exact setGo_scalar_nil_idem v (Json.bool b) part rfl
      | num n => exact setGo_scalar_nil_idem v (Json.num n) part rfl
      | str s => exact setGo_scalar_nil_idem v (Json.str s) part rfl
  | cons next rest' ih =>
      intro c part
      cases c with
      | obj m => exact setGo_cons_obj_idem v next rest' ih m part
      | arr a => exact setGo_cons_arr_idem v next rest' ih a part
      | null => exact setGo_scalar_cons_idem v Json.null part next rest' ih rfl
      | bool b => exact setGo_scalar_cons_idem v (Json.bool b) part next rest' ih rfl
      | num n => exact setGo_scalar_cons_idem v (Json.num n) part next rest' ih rfl
      | str s => exact setGo_scalar_cons_idem v (Json.str s) part next rest' ih rfl

theorem setValueByPath_idem (t : Json) (p : String) (v : Json) :
    setValueByPath (setValueByPath t p v) p v = setValueByPath t p v := by
  cases h : splitPath p with
  | nil => simp [setValueByPath, h]
  | cons part rest => simp [setValueByPath, h, setGo_idem]

theorem removeKey_of_absent (m : List (String × Json)) (k : String)
    (h : keyAbsent k m = true) : mapRemoveKey m k = m := by
  induction m with
  | nil => rfl
  | cons hd tl ih =>
      obtain ⟨l, w⟩ := hd
      simp only [keyAbsent, Bool.and_eq_true, Bool.not_eq_true', beq_eq_false_iff_ne,
        ne_eq] at h
      have hne : ¬ l = k := fun hlk => h.1 hlk.symm
      simp [mapRemoveKey, hne, ih h.2]

theorem wf_removeKey_idem (m : List (String × Json)) (k : String)
    (h : Json.wf (Json.obj m) = true) :
    mapRemoveKey (mapRemoveKey m k) k = mapRemoveKey m k := by
  induction m with
  | nil => rfl
  | cons hd tl ih =>
      obtain ⟨l, w⟩ := hd
      simp only [Json.wf, Bool.and_eq_true] at h
      by_cases hlk : l = k
      · subst hlk
        simp [mapRemoveKey, removeKey_of_absent tl l h.1.1]
      · simp [mapRemoveKey, hlk, ih h.2]

theorem wf_obj_child (m : List (String × Json)) (k : String) (x : Json)
    (hwf : Json.wf (Json.obj m) = true) (hget : mapGet m k = some x) :
    Json.wf x = true := by
  induction m with
  | nil => simp [mapGet] at hget
  | cons hd tl ih =>
      obtain ⟨l, w⟩ := hd
      simp only [Json.wf, Bool.and_eq_true] at hwf
      by_cases hlk : l = k
      · simp only [mapGet, if_pos hlk, Option.some.injEq] at hget
        rw [← hget]
        exact hwf.1.2
      · simp only [mapGet, if_neg hlk] at hget
        exact ih hwf.2 hget

theorem wf_arr_child (a : List Json) (i : Nat) (x : Json) :
    Json.wf (Json.arr a) = true → a[i]? = some x → Json.wf x = true := by
  induction a generalizing i with
  | nil =>
      intro _ hget
      simp at hget
  | cons hd tl ih =>
      intro hwf hget
      simp only [Json.wf, Bool.and_eq_true] at hwf
      cases i with
      | zero =>
          simp only [List.getElem?_cons_zero, Option.some.injEq] at hget
          rw [← hget]
          exact hwf.1
      | succ j =>
          simp only [List.getElem?_cons_succ] at hget
          exact ih j hwf.2 hget

theorem listGet?_lt (a : List Json) (i : Nat) (x : Json) :
    a[i]? = some x → i < a.length := by
  induction a generalizing i with
  | nil =>
      intro h
      simp at h
  | cons hd tl ih =>
      intro h
      cases i with
      | zero => simp
      | succ j =>
          simp only [List.getElem?_cons_succ] at h
          simpa using ih j h

theorem listGet?_set_self (a : List Json) (i : Nat) (w : Json) :
    i < a.length → (a.set i w)[i]? = some w := by
  induction a generalizing i with
  | nil =>
      intro h
      simp at h
  | cons hd tl ih =>
      intro h
      cases i with
      | zero => simp [List.set]
      | succ j =>
          simp only [List.set, List.getElem?_cons_succ]
          exact ih j (by simpa using h)

theorem deleteGo_idem (rest : List String) :
    ∀ (c : Json) (part : String),
      Json.wf c = true → deleteSplices c part rest = false →
      deleteGo (deleteGo c part rest) part rest = deleteGo c part rest := by
  induction rest with
  | nil =>
      intro c part hwf hs
      cases c with
      | obj m => simp [deleteGo, wf_removeKey_idem m part hwf]
      | arr a =>
          cases hpi : parseIndex part with
          | none => simp [deleteGo, hpi]
          | some idx =>
              have hge : ¬ idx < a.length := by
                simpa [deleteSplices, hpi] using hs
              simp [deleteGo, hpi, hge]
      | null => rfl
      | bool b => rfl
      | num n => rfl
      | str s => rfl
  | cons next rest' ih =>
      intro c part hwf hs
      cases c with
      | obj m =>
          cases hget : mapGet m part with
          | none => simp [deleteGo, hget]
          | some child =>
              have hwfc : Json.wf child = true := wf_obj_child m part child hwf hget
              have hs' : deleteSplices child next rest' = false := by
                simpa [deleteSplices, hget] using hs
              have hrec : deleteGo (deleteGo child next rest') next rest'
                  = deleteGo child next rest' := ih child next hwfc hs'
              have hget2 : mapGet (mapUpdate m part (fun _ => deleteGo child next rest')) part
                  = some (deleteGo child next rest') := by
                rw [mapGet_mapUpdate, hget]
                rfl
              simp [deleteGo, hget, hget2, mapUpdate_mapUpdate, hrec]
      | arr a =>
          cases hpi : parseIndex part with
          | none => simp [deleteGo, hpi]
          | some idx =>
              cases hget : a[idx]? with
              | none => simp [deleteGo, hpi, hget]
              | some child =>
                  have hwfc : Json.wf child = true := wf_arr_child a idx child hwf hget
                  have hs' : deleteSplices child next rest' = false := by
                    simpa [deleteSplices, hpi, hget] using hs
                  have hrec : deleteGo (deleteGo child next rest') next rest'
                      = deleteGo child next rest' := ih child next hwfc hs'
                  have hidx : idx < a.length := listGet?_lt a idx child hget
                  have hget2 : (a.set idx (deleteGo child next rest'))[idx]?
                      = some (deleteGo child next rest') :=
                    listGet?_set_self a idx _ hidx
                  simp [deleteGo, hpi, hget, hget2, hrec, List.set_set]
      | null => rfl
      | bool b => rfl
      | num n => rfl
      | str s => rfl

theorem deleteValueByPath_idem (t : Json) (p : String)
    (hwf : Json.wf t = true)
    (hs : (match splitPath p with
           | [] => false
           | part :: rest => deleteSplices t part rest) = false) :
    deleteValueByPath (deleteValueByPath t p) p = deleteValueByPath t p := by
  cases h : splitPath p with
  | nil => simp [deleteValueByPath, h]
  | cons part rest =>
      rw [h] at hs
      simp [deleteValueByPath, h, deleteGo_idem rest t part hwf hs]

/-- C7, counterexample: `delete` is not idempotent when the terminal
segment splices an array element — on `{"a":[1,2]}`, `delete("a.0")` once
leaves `{"a":[2]}` but twice leaves `{"a":[]}` (`arr.remove(idx)` shifts
later elements down). -/
theorem c7_idempotence_counterexample :
    dbDelete (Json.obj [("a", Json.arr [Json.num 1, Json.num 2])]) "a.0"
      = Json.obj [("a", Json.arr [Json.num 2])] ∧
    dbDelete (dbDelete (Json.obj [("a", Json.arr [Json.num 1, Json.num 2])]) "a.0") "a.0"
      = Json.obj [("a", Json.arr [])] ∧
    dbDelete (dbDelete (Json.obj [("a", Json.arr [Json.num 1, Json.num 2])]) "a.0") "a.0"
      ≠ dbDelete (Json.obj [("a", Json.arr [Json.num 1, Json.num 2])]) "a.0" := by
  refine ⟨rfl, rfl, ?_⟩
  intro h
  have h1 : hasPath
      (dbDelete (dbDelete (Json.obj [("a", Json.arr [Json.num 1, Json.num 2])]) "a.0") "a.0")
      "a.0" = false := rfl
  rw [h] at h1
  exact absurd h1 (by decide)

/-- C7, amended: `set(p, v); set(p, v)` equals `set(p, v)` for every tree,
path and value.  `delete(p); delete(p)` equals `delete(p)` for every
well-formed tree (objects carry pairwise-distinct keys, as serde maps do)
whenever the first delete's walk does not splice an element out of an
array; when it does splice (an in-range numeric terminal segment on an
array), repeated deletes remove successive elements. -/
theorem c7_idempotence_amended (t : Json) (p : String) (v : Json) :
    dbSet (dbSet t p v) p v = dbSet t p v ∧
    (Json.wf t = true → dbDeleteSplices t p = false →
      dbDelete (dbDelete t p) p = dbDelete t p) := by
  constructor
  · by_cases hp : p = "" <;>
      simp [dbSet, applyOperation, hp, setValueByPath_idem]
  · intro hwf hs
    by_cases hp : p = ""
    · simp [dbDelete, applyOperation, hp]
    · simp only [dbDeleteSplices, hp, if_neg, if_false] at hs
      simp only [dbDelete, applyOperation, hp, if_neg, if_false]
      exact deleteValueByPath_idem t p hwf (by
        cases h : splitPath p with
        | nil => rfl
        | cons part rest => rw [h] at hs; exact hs)

/-- C7, witness for the amended theorem at a concrete tree and path. -/
theorem c7_idempotence_amended_witness :
    Json.wf (Json.obj [("a", Json.obj [("b", Json.num 1)])]) = true ∧
    dbDeleteSplices (Json.obj [("a", Json.obj [("b", Json.num 1)])]) "a.b" = false ∧
    dbSet (dbSet (Json.obj [("a", Json.obj [("b", Json.num 1)])]) "a.b" (Json.num 2))
        "a.b" (Json.num 2)
      = dbSet (Json.obj [("a", Json.obj [("b", Json.num 1)])]) "a.b" (Json.num 2) ∧
    dbDelete (dbDelete (Json.obj [("a", Json.obj [("b", Json.num 1)])]) "a.b") "a.b"
      = dbDelete (Json.obj [("a", Json.obj [("b", Json.num 1)])]) "a.b" :=
  ⟨by simp [Json.wf, keyAbsent], rfl,
   (c7_idempotence_amended (Json.obj [("a", Json.obj [("b", Json.num 1)])]) "a.b"
     (Json.num 2)).1,
   (c7_idempotence_amended (Json.obj [("a", Json.obj [("b", Json.num 1)])]) "a.b"
     (Json.num 2)).2 (by simp [Json.wf, keyAbsent]) rfl⟩

/-! ## Ancestor preservation by set -/

theorem mapGet_isSome_mapInsert (m : List (String × Json)) (k : String) (v : Json)
    (key : String) (h : (mapGet m key).isSome = true) :
    (mapGet (mapInsert m k v) key).isSome = true := by
  induction m with
  | nil => simp [mapGet] at h
  | cons hd tl ih =>
      obtain ⟨k', w⟩ := hd
      by_cases h1 : k' = k <;> by_cases h2 : k' = key <;>
        simp_all [mapInsert, mapGet, h1, h2]

theorem mapGet_isSome_mapUpdate (m : List (String × Json)) (k : String)
    (f : Json → Json) (key : String) :
    (mapGet (mapUpdate m k f) key).isSome = (mapGet m key).isSome := by
  induction m with
  | nil => simp [mapUpdate]
  | cons hd tl ih =>
      obtain ⟨k', w⟩ := hd
      by_cases h1 : k' = k <;> by_cases h2 : k' = key <;>
        simp_all [mapUpdate, mapGet, h1, h2]

/-- At an object, one step of `set` preserves every existing key. -/
theorem setGo_obj_keys (v : Json) (m : List (String × Json)) (part : String)
    (rest : List String) :
    ∃ m2, setGo v (Json.obj m) part rest = Json.obj m2 ∧
      ∀ key, (mapGet m key).isSome = true → (mapGet m2 key).isSome = true := by
  cases rest with
  | nil =>
      refine ⟨mapInsert m part v, by simp [setGo, isContainer_obj], ?_⟩
      intro key h
      exact mapGet_isSome_mapInsert m part v key h
  | cons next rest' =>
      refine ⟨mapUpdate
          (if (mapGet m part).isSome then m else mapInsert m part (freshChild next))
          part (fun child => setGo v child next rest'),
        setGo_cons_obj_eq v m part next rest', ?_⟩
      intro key h
      rw [mapGet_isSome_mapUpdate]
      by_cases hg : (mapGet m part).isSome = true
      · simpa [hg] using h
      · simp only [hg, Bool.false_eq_true, if_false]
        exact mapGet_isSome_mapInsert m part (freshChild next) key h

/-- At an array, one step of `set` never shrinks the array. -/
theorem setGo_arr_len (v : Json) (a : List Json) (part : String)
    (rest : List String) :
    ∃ a2, setGo v (Json.arr a) part rest = Json.arr a2 ∧ a.length ≤ a2.length := by
  cases rest with
  | nil =>
      cases hpi : parseIndex part with
      | none => exact ⟨a, by simp [setGo, hpi, isContainer_arr], le_refl _⟩
      | some idx =>
          refine ⟨(padTo a idx).set idx v, by simp [setGo, hpi, isContainer_arr], ?_⟩
          rw [List.length_set, length_padTo]
          omega
  | cons next rest' =>
      cases hpi : parseIndex part with
      | none => exact ⟨a, by simp [setGo, hpi, isContainer_arr], le_refl _⟩
      | some idx =>
          refine ⟨_, setGo_cons_arr_eq v a part next rest' idx hpi, ?_⟩
          rw [List.length_set]
          split
          · rw [List.length_set, length_padTo]
            omega
          · rw [length_padTo]
            omega

theorem listGetD_of_getElem? (a : List Json) (i : Nat) (x : Json)
    (h : a[i]? = some x) : a.getD i Json.null = x := by
  induction a generalizing i with
  | nil => simp at h
  | cons hd tl ih =>
      cases i with
      | zero =>
          simp only [List.getElem?_cons_zero, Option.some.injEq] at h
          simp [List.getD_cons_zero, h]
      | succ j =>
          simp only [List.getElem?_cons_succ] at h
          simp only [List.getD_cons_succ]
          exact ih j h

theorem isNull_eq_true_iff (w : Json) : w.isNull = true ↔ w = Json.null := by
  cases w <;> simp [Json.isNull]

/-- C8: `set` never overwrites an existing container met while walking or
creating ancestors.  For every strict prefix `q` of the segment list
`part :: rest`, an object that `get` finds at `q` is still an object after
the `set` and keeps every key it had, and an array found at `q` is still an
array of at least its old length — the only nodes `set` replaces with a
fresh container are non-container scalars and null slots. -/
theorem c8_ancestor_preservation (v t : Json) (part : String) (rest : List String)
    (q suffix : List String) (hq : q ++ suffix = part :: rest) (hs : suffix ≠ []) :
    (∀ m, getParts t q = some (Json.obj m) →
      ∃ m2, getParts (setGo v t part rest) q = some (Json.obj m2) ∧
        ∀ key, (mapGet m key).isSome = true → (mapGet m2 key).isSome = true) ∧
    (∀ a, getParts t q = some (Json.arr a) →
      ∃ a2, getParts (setGo v t part rest) q = some (Json.arr a2) ∧
        a.length ≤ a2.length) := by
  induction q generalizing t part rest suffix with
  | nil =>
      constructor
      · intro m hm
        simp only [getParts, Option.some.injEq] at hm
        subst hm
        obtain ⟨m2, heq, hmono⟩ := setGo_obj_keys v m part rest
        exact ⟨m2, by simp [getParts, heq], hmono⟩
      · intro a ha
        simp only [getParts, Option.some.injEq] at ha
        subst ha
        obtain ⟨a2, heq, hlen⟩ := setGo_arr_len v a part rest
        exact ⟨a2, by simp [getParts, heq], hlen⟩
  | cons s q' ih =>
      rw [List.cons_append] at hq
      injection hq with hsp hrest
      subst hsp
      cases rest with
      | nil =>
          exact absurd (List.append_eq_nil.mp hrest).2 hs
      | cons next rest2 =>
          cases t with
          | null => exact ⟨fun x hx => by simp [getParts] at hx,
              fun x hx => by simp [getParts] at hx⟩
          | bool b => exact ⟨fun x hx => by simp [getParts] at hx,
              fun x hx => by simp [getParts] at hx⟩
          | num n => exact ⟨fun x hx => by simp [getParts] at hx,
              fun x hx => by simp [getParts] at hx⟩
          | str s2 => exact ⟨fun x hx => by simp [getParts] at hx,
              fun x hx => by simp [getParts] at hx⟩
          | obj m =>
              cases hget : mapGet m s with
              | none =>
                  exact ⟨fun x hx => by simp [getParts, hget] at hx,
                    fun x hx => by simp [getParts, hget] at hx⟩
              | some child =>
                  have hres : setGo v (Json.obj m) s (next :: rest2)
                      = Json.obj (mapUpdate m s
                          (fun child => setGo v child next rest2)) := by
                    rw [setGo_cons_obj_eq]
                    simp [hget]
                  have hget2 : mapGet (mapUpdate m s
                        (fun c => setGo v c next rest2)) s
                      = some (setGo v child next rest2) := by
                    rw [mapGet_mapUpdate, hget]
                    rfl
                  have hih := ih child next rest2 suffix hrest hs
                  constructor
                  · intro mm hmm
                    have hmm' : getParts child q' = some (Json.obj mm) := by
                      simpa [getParts, hget] using hmm
                    obtain ⟨m2, hm2, hmono⟩ := hih.1 mm hmm'
                    exact ⟨m2, by simp [getParts, hres, hget2, hm2], hmono⟩
                  · intro aa haa
                    have haa' : getParts child q' = some (Json.arr aa) := by
                      simpa [getParts, hget] using haa
                    obtain ⟨a2, ha2, hlen⟩ := hih.2 aa haa'
                    exact ⟨a2, by simp [getParts, hres, hget2, ha2], hlen⟩
          | arr a =>
              cases hpi : parseIndex s with
              | none =>
                  exact ⟨fun x hx => by simp [getParts, hpi] at hx,
                    fun x hx => by simp [getParts, hpi] at hx⟩
              | some idx =>
                  cases hget : a[idx]? with
                  | none =>
                      exact ⟨fun x hx => by simp [getParts, hpi, hget] at hx,
                        fun x hx => by simp [getParts, hpi, hget] at hx⟩
                  | some child =>
                      have hidx : idx < a.length := listGet?_lt a idx child hget
                      have hpadeq : padTo a idx = a := padTo_eq_of_le a idx (by omega)
                      have hgetD : a.getD idx Json.null = child :=
                        listGetD_of_getElem? a idx child hget
                      by_cases hnull : child.isNull = true
                      · have hchild : child = Json.null :=
                          (isNull_eq_true_iff child).mp hnull
                        subst hchild
                        constructor <;> intro x hx
                        · have hx' : getParts Json.null q' = some (Json.obj x) := by
                            simpa [getParts, hpi, hget] using hx
                          cases q' with
                          | nil => simp [getParts] at hx'
                          | cons z zs => simp [getParts] at hx'
                        · have hx' : getParts Json.null q' = some (Json.arr x) := by
                            simpa [getParts, hpi, hget] using hx
                          cases q' with
                          | nil => simp [getParts] at hx'
                          | cons z zs => simp [getParts] at hx'
                      · have hres : setGo v (Json.arr a) s (next :: rest2)
                            = Json.arr (a.set idx (setGo v child next rest2)) := by
                          rw [setGo_cons_arr_eq v a s next rest2 idx hpi]
                          rw [hpadeq, hgetD]
                          simp [hnull, hget]
                        have hget2 : (a.set idx (setGo v child next rest2))[idx]?
                            = some (setGo v child next rest2) :=
                          listGet?_set_self a idx _ hidx
                        have hih := ih child next rest2 suffix hrest hs
                        constructor
                        · intro mm hmm
                          have hmm' : getParts child q' = some (Json.obj mm) := by
                            simpa [getParts, hpi, hget] using hmm
                          obtain ⟨m2, hm2, hmono⟩ := hih.1 mm hmm'
                          exact ⟨m2, by simp [getParts, hres, hpi, hget2, hm2], hmono⟩
                        · intro aa haa
                          have haa' : getParts child q' = some (Json.arr aa) := by
                            simpa [getParts, hpi, hget] using haa
                          obtain ⟨a2, ha2, hlen⟩ := hih.2 aa haa'
                          exact ⟨a2, by simp [getParts, hres, hpi, hget2, ha2], hlen⟩

/-- C8, witness at a concrete tree: setting `a.b` inside `{"a":{"x":1}}`
keeps the object found at prefix `["a"]` an object with all its keys. -/
theorem c8_ancestor_preservation_witness :
    ((["a"] : List String) ++ ["b"] = "a" :: ["b"]) ∧
    ((["b"] : List String) ≠ []) ∧
    ((∀ m, getParts (Json.obj [("a", Json.obj [("x", Json.num 1)])]) ["a"]
        = some (Json.obj m) →
      ∃ m2, getParts (setGo (Json.num 2)
          (Json.obj [("a", Json.obj [("x", Json.num 1)])]) "a" ["b"]) ["a"]
        = some (Json.obj m2) ∧
        ∀ key, (mapGet m key).isSome = true → (mapGet m2 key).isSome = true) ∧
    (∀ a, getParts (Json.obj [("a", Json.obj [("x", Json.num 1)])]) ["a"]
        = some (Json.arr a) →
      ∃ a2, getParts (setGo (Json.num 2)
          (Json.obj [("a", Json.obj [("x", Json.num 1)])]) "a" ["b"]) ["a"]
        = some (Json.arr a2) ∧ a.length ≤ a2.length)) :=
  ⟨rfl, by decide,
   c8_ancestor_preservation (Json.num 2)
     (Json.obj [("a", Json.obj [("x", Json.num 1)])]) "a" ["b"] ["a"] ["b"]
     rfl (by decide)⟩
